import Mathlib

/-!
# git-ops: verification of the reconciliation engine and extension substrate

Shallow embedding of the core of the `git-ops` daemon, translated from the Go
sources:

* the event bus (`pkg/core`, pattern subscription and publish fan-out),
* the module lifecycle manager (`pkg/core/module.go`),
* the reconciler cycle (`pkg/reconciler/reconciler.go`): desired/removal
  classification of on-disk units, pruning, and the per-unit deploy pipeline
  with hook fetching, secret aggregation and hook execution.

Side effects are modelled as traces of `Action`s; external collaborators
(source provider, filesystem, executor, plugins) are inputs of the model.
-/

namespace GitOps

/-! ## Go string helpers

`strings.HasPrefix`, `strings.HasSuffix` and `strings.TrimSuffix`, modelled on
the character list underlying a `String`. -/

/-- `strings.HasPrefix s pre`. -/
def goStartsWith (s pre : String) : Bool := pre.data.isPrefixOf s.data

/-- `strings.HasSuffix s suf`. -/
def goEndsWith (s suf : String) : Bool := suf.data.isSuffixOf s.data

/-- `strings.TrimSuffix s suf`: drops `suf` from the end of `s` when present,
otherwise returns `s` unchanged. -/
def goTrimSuffix (s suf : String) : String :=
  if goEndsWith s suf then ⟨s.data.take (s.data.length - suf.data.length)⟩ else s

/-! ## Event bus (`core` package)

`matchesPattern` and the fan-out performed by `Publish`: for every stored
pattern that matches the event's type, every listener registered under that
pattern is dispatched. Listeners are identified by numbers. -/

/-- `matchesPattern(eventType, pattern)`: exact equality, else prefix match when
the pattern ends with the wildcard marker `*`. -/
def matchesPattern (eventType pattern : String) : Bool :=
  if pattern == eventType then true
  else if goEndsWith pattern "*" then
    goStartsWith eventType (goTrimSuffix pattern "*")
  else false

/-- One entry of the subscriber table: a pattern and its registered listeners. -/
structure Subscription where
  pattern : String
  handlers : List Nat
deriving DecidableEq, Repr

/-- The set of listeners `Publish` dispatches an event of type `eventType` to,
given the subscriber table. -/
def publishDelivers (subs : List Subscription) (eventType : String) : List Nat :=
  subs.foldr (fun s acc => if matchesPattern eventType s.pattern then s.handlers ++ acc else acc) []

/-! ## Module lifecycle manager (`pkg/core/module.go`)

`ModuleManager.Stop` iterates the registered modules from the last index down
to `0`, logging, calling `Stop`, and logging (not propagating) any error. -/

/-- A registered module, abstracted to its name and whether its `Stop` call
returns an error. -/
structure ModuleSpec where
  name : String
  stopErr : Bool
deriving DecidableEq, Repr

/-- Trace actions of the module manager. -/
inductive MAction where
  | logStopping (name : String)
  | stopCall (name : String)
  | logStopError (name : String)
deriving DecidableEq, Repr

/-- Stop the given modules front to back (helper: `ModuleManager.Stop` runs
this on the reversed registration list). -/
def stopSeq : List ModuleSpec → List MAction
  | [] => []
  | m :: rest =>
      MAction.logStopping m.name :: MAction.stopCall m.name ::
        ((if m.stopErr then [MAction.logStopError m.name] else []) ++ stopSeq rest)

/-- `ModuleManager.Stop`: iterate registered modules in reverse order,
synchronously, logging each error and continuing. -/
def mmStop (modules : List ModuleSpec) : List MAction := stopSeq modules.reverse

/-- The sequence of `Stop` invocations in a module-manager trace. -/
def stopCalls (tr : List MAction) : List String :=
  tr.filterMap fun a => match a with | MAction.stopCall n => some n | _ => none


/-! ## Reconciler (`pkg/reconciler/reconciler.go`)

The reconciliation cycle and the per-unit deploy pipeline, as traces of
`Action`s.  External collaborators (source provider, filesystem, executor,
secret plugins) appear as inputs; each side effect becomes one trace action. -/

/-- Hook stages of one unit deploy, in the order `deployRepo` runs them. -/
inductive HookStage where
  | globalPre
  | repoPre
  | repoPost
  | globalPost
deriving DecidableEq, Repr

/-- Observable side effects of a reconciliation cycle. -/
inductive Action where
  /-- `pruneService` in dry-run: log only. -/
  | logDryRunPrune (path : String)
  /-- `docker compose down` in `pruneService`. -/
  | executorDown (path : String)
  /-- `os.RemoveAll` in `pruneService`. -/
  | removeDir (path : String)
  /-- "Sync Divergence ... Skipping removal" warning in `processLocalState`. -/
  | logWarnDivergence (service : String)
  /-- "Repo found in both Desired and Removal state, skipping deploy" warning. -/
  | logWarnConflictSkip (service : String)
  /-- the cycle's deploy loop calls `deployRepo` for this unit. -/
  | deployInvoked (service : String)
  /-- `os.MkdirAll(repoLocalPath)` in `deployRepo`. -/
  | mkdirUnit
  /-- "Updating deployment" log once change detection sees a difference. -/
  | logUpdate
  /-- `os.WriteFile` of the fetched descriptor. -/
  | writeDescriptor (content : String)
  /-- `os.MkdirAll` of a per-unit hook directory in `fetchRepoHooks`. -/
  | mkdirHooksDir (stage : String)
  /-- `os.WriteFile` of one fetched hook script in `fetchRepoHooks`. -/
  | writeHookScript (stage : String) (name : String)
  /-- `p.Execute("get_secrets", …)` on one secrets-capable plugin. -/
  | querySecrets (plugin : String)
  /-- one hook script run by `utils.ExecuteHooks`. -/
  | execHook (stage : HookStage) (name : String)
  /-- `docker compose up -d` with the aggregated secret environment. -/
  | executorUp (env : List String)
  /-- "Deploy sequence complete" log. -/
  | logDeployComplete
  /-- `core.Publish` of an event (never emitted by the reconciler source). -/
  | publishEvent (eventType : String)
deriving DecidableEq, Repr

/-- Outcome class of a source-provider fetch: a 404 (`notFound`, benign) or any
other error (`transient`). -/
inductive FetchErr where
  | notFound
  | transient
deriving DecidableEq, Repr

/-- Equality of fetch/execute outcomes is decidable (needed to evaluate the
model on concrete worlds). -/
instance {ε α : Type} [DecidableEq ε] [DecidableEq α] : DecidableEq (Except ε α) := fun a b =>
  match a, b with
  | .ok x, .ok y =>
      if h : x = y then isTrue (by rw [h]) else isFalse (by intro he; cases he; exact h rfl)
  | .error x, .error y =>
      if h : x = y then isTrue (by rw [h]) else isFalse (by intro he; cases he; exact h rfl)
  | .ok _, .error _ => isFalse (by intro he; cases he)
  | .error _, .ok _ => isFalse (by intro he; cases he)

/-- One entry returned by listing a remote `.deploy/{stage}` directory,
together with the outcome of fetching and decoding its content. -/
structure HookFile where
  name : String
  isFile : Bool
  content : Except Unit String
deriving DecidableEq, Repr

/-- A secrets-capable plugin: its name and the outcome of
`Execute("get_secrets", …)` — an error, a non-`map[string]string` result
(`none`, silently ignored), or a key/value list. -/
structure SecretPlugin where
  pname : String
  execResult : Except Unit (Option (List (String × String)))
deriving DecidableEq, Repr

/-- One directory entry of a local hook directory, with the exit status its
script would produce when run. -/
structure Script where
  sname : String
  isDir : Bool
  runOk : Bool
deriving DecidableEq, Repr

/-- `filepath.Join` for simple (slash-free) components. -/
def pathJoin (a b : String) : String := a ++ "/" ++ b

/-- `utils.ExecuteHooks` over the listed entries: run every non-directory
`*.sh` entry in listing order (`os.ReadDir` sorts by filename), stopping at the
first script that exits non-zero.  Returns the run actions and overall success. -/
def execHooksList (stage : HookStage) : List Script → List Action × Bool
  | [] => ([], true)
  | s :: rest =>
    if s.isDir || !(goEndsWith s.sname ".sh") then execHooksList stage rest
    else if s.runOk then
      let r := execHooksList stage rest
      (Action.execHook stage s.sname :: r.1, r.2)
    else ([Action.execHook stage s.sname], false)

/-- `utils.ExecuteHooks`: a missing hook directory is a silent success. -/
def executeHooks (stage : HookStage) : Option (List Script) → List Action × Bool
  | none => ([], true)
  | some scripts => execHooksList stage scripts

/-- `fetchRepoHooks`: from the result of listing `.deploy/{stage}` remotely,
either abort (`transient` listing error) or produce the hook-dir creation and
script-write actions.  A `notFound` listing is a silent skip with no actions;
an individual script whose content fetch or decode fails is logged and skipped
(`continue`), not an abort. -/
def fetchRepoHooks (stage : String) : Except FetchErr (List HookFile) → Except Unit (List Action)
  | .error .notFound => .ok []
  | .error .transient => .error ()
  | .ok files =>
      .ok (Action.mkdirHooksDir stage ::
        files.filterMap fun f =>
          if f.isFile && goEndsWith f.name ".sh" then
            match f.content with
            | .ok _ => some (Action.writeHookScript stage f.name)
            | .error _ => none
          else none)

/-- The secret-aggregation loop of `deployRepo`: query each secrets plugin in
registry (= discovery) order, abort on the first `Execute` error, ignore
non-map results, and append every returned pair as `KEY=VALUE` — no
deduplication of keys.  Returns the query actions and the environment list
(or the abort). -/
def collectSecretEnv : List SecretPlugin → List Action × Except Unit (List String)
  | [] => ([], .ok [])
  | p :: rest =>
    match p.execResult with
    | .error _ => ([Action.querySecrets p.pname], .error ())
    | .ok none =>
        let r := collectSecretEnv rest
        (Action.querySecrets p.pname :: r.1, r.2)
    | .ok (some kvs) =>
        let r := collectSecretEnv rest
        (Action.querySecrets p.pname :: r.1,
          match r.2 with
          | .error e => .error e
          | .ok env => .ok (kvs.map (fun kv => kv.1 ++ "=" ++ kv.2) ++ env))

/-- The inputs one `deployRepo` call depends on. -/
structure DeployWorld where
  /-- `cfg.DryRun`. -/
  dryRun : Bool
  /-- `cfg.GlobalHooksDir != ""`. -/
  globalHooksConfigured : Bool
  /-- fetching + decoding `docker-compose.yml` remotely (`notFound` = 404
  silent skip; `transient` also covers a content-decode failure, which likewise
  returns without further actions). -/
  compose : Except FetchErr String
  /-- `os.ReadFile` of the locally stored descriptor (`none` when absent or
  unreadable — Go then sees the empty string). -/
  localDescriptor : Option String
  /-- listing `.deploy/pre` remotely, with per-file content outcomes. -/
  preHooks : Except FetchErr (List HookFile)
  /-- listing `.deploy/post` remotely, with per-file content outcomes. -/
  postHooks : Except FetchErr (List HookFile)
  /-- `registry.GetPluginsWithCapability("secrets")`, in registration order. -/
  plugins : List SecretPlugin
  /-- the global `pre` hook directory (`none` = absent). -/
  globalPre : Option (List Script)
  /-- the per-unit `.deploy/pre` hook directory as present on disk. -/
  repoPre : Option (List Script)
  /-- whether `docker compose up` exits successfully. -/
  upOk : Bool
  /-- the per-unit `.deploy/post` hook directory. -/
  repoPost : Option (List Script)
  /-- the global `post` hook directory. -/
  globalPost : Option (List Script)
deriving DecidableEq, Repr

/-- The hook-execution and `up` tail of `deployRepo` (lines 354–394): global
pre-hooks (when configured), per-unit pre-hooks — any pre failure aborts before
`up` — then `docker compose up` with the secret environment, then per-unit
post-hooks (failure logged, not fatal) and global post-hooks (failure is the
unit's final failure signal, skipping the completion log). -/
def runHooksAndUp (w : DeployWorld) (secretEnv : List String) : List Action :=
  let g := if w.globalHooksConfigured then executeHooks HookStage.globalPre w.globalPre
           else ([], true)
  if !g.2 then g.1
  else
    let r := executeHooks HookStage.repoPre w.repoPre
    if !r.2 then g.1 ++ r.1
    else
      let pre := g.1 ++ r.1 ++ [Action.executorUp secretEnv]
      if !w.upOk then pre
      else
        let post := (executeHooks HookStage.repoPost w.repoPost).1
        let gp := if w.globalHooksConfigured then executeHooks HookStage.globalPost w.globalPost
                  else ([], true)
        pre ++ post ++ gp.1 ++ (if !gp.2 then [] else [Action.logDeployComplete])

/-- `deployRepo` from the descriptor write onward (lines 301–394): write the
fetched content, fetch pre- then post-stage hooks (a stage fetch error aborts),
aggregate secrets (an `Execute` error aborts), then run hooks and `up`. -/
def deployAfterWrite (w : DeployWorld) (content : String) : List Action :=
  Action.writeDescriptor content ::
    match fetchRepoHooks "pre" w.preHooks with
    | .error _ => []
    | .ok preActs =>
      preActs ++
        match fetchRepoHooks "post" w.postHooks with
        | .error _ => []
        | .ok postActs =>
          postActs ++ (collectSecretEnv w.plugins).1 ++
            (match (collectSecretEnv w.plugins).2 with
             | .error _ => []
             | .ok env => runHooksAndUp w env)

/-- `deployRepo` (lines 252–395): skip on any compose fetch failure; ensure the
unit directory exists (unless dry-run); compare the fetched content against the
local descriptor read as a string (absent file ⇒ empty string) and stop when
identical; log the pending update; in dry-run stop there; otherwise write and
continue with `deployAfterWrite`. -/
def deployRepo (w : DeployWorld) : List Action :=
  match w.compose with
  | .error _ => []
  | .ok content =>
    let mk := if w.dryRun then [] else [Action.mkdirUnit]
    if w.localDescriptor.getD "" == content then mk
    else if w.dryRun then mk ++ [Action.logUpdate]
    else mk ++ [Action.logUpdate] ++ deployAfterWrite w content

/-- `pruneService`: in dry-run only log; otherwise `docker compose down`
(error ignored) then delete the unit directory. -/
def pruneService (dryRun : Bool) (path : String) : List Action :=
  if dryRun then [Action.logDryRunPrune path]
  else [Action.executorDown path, Action.removeDir path]

/-- One repo-level directory entry under a user directory. -/
structure RepoDirEntry where
  name : String
  isDir : Bool
deriving DecidableEq, Repr

/-- One user-level directory entry of the target directory, with its children. -/
structure UserDirEntry where
  name : String
  isDir : Bool
  repos : List RepoDirEntry
deriving DecidableEq, Repr

/-- Classification of one local unit directory in `processLocalState`: in the
Removal set ⇒ prune; else not in the Desired set ⇒ divergence warning only;
else nothing (the deploy loop handles it). -/
def classifyRepo (desired removal : List String) (dryRun : Bool) (targetDir : String)
    (userName : String) (rd : RepoDirEntry) : List Action :=
  if !rd.isDir then []
  else
    let key := userName ++ "/" ++ rd.name
    if removal.contains key then
      pruneService dryRun (pathJoin (pathJoin targetDir userName) rd.name)
    else if !(desired.contains key) then [Action.logWarnDivergence key]
    else []

/-- `processLocalState`: walk `TARGET_DIR/OWNER/REPO`, skipping non-directory
entries, and classify every local unit. -/
def processLocalState (desired removal : List String) (dryRun : Bool) (targetDir : String)
    (disk : List UserDirEntry) : List Action :=
  disk.flatMap fun u =>
    if !u.isDir then []
    else u.repos.flatMap (classifyRepo desired removal dryRun targetDir u.name)

/-- The deploy loop of `reconcile` (lines 155–167): for each desired unit, a
unit also in the Removal set is skipped with a warning; otherwise `deployRepo`
runs for it (`worlds` giving each unit's deploy inputs). -/
def deployPhase (removal : List String) (worlds : String → DeployWorld) :
    List String → List Action
  | [] => []
  | key :: rest =>
    (if removal.contains key then [Action.logWarnConflictSkip key]
     else Action.deployInvoked key :: deployRepo (worlds key)) ++ deployPhase removal worlds rest

/-- Steps 3 and 4 of `reconcile`: process local state (pruning and warnings),
then the deploy phase over the Desired set. -/
def reconcileCycle (desired removal : List String) (dryRun : Bool) (targetDir : String)
    (disk : List UserDirEntry) (worlds : String → DeployWorld) : List Action :=
  processLocalState desired removal dryRun targetDir disk ++
    deployPhase removal worlds desired

/-! ### Trace observations -/

/-- Whether a trace invokes the deployment executor's `up`. -/
def hasUp (tr : List Action) : Bool :=
  tr.any fun a => match a with | Action.executorUp _ => true | _ => false

/-- Whether a trace runs any hook script. -/
def hasHookExec (tr : List Action) : Bool :=
  tr.any fun a => match a with | Action.execHook _ _ => true | _ => false

/-- Whether a trace runs any post-stage hook script. -/
def hasPostHookExec (tr : List Action) : Bool :=
  tr.any fun a => match a with
    | Action.execHook HookStage.repoPost _ => true
    | Action.execHook HookStage.globalPost _ => true
    | _ => false

/-- Whether a trace queries any secrets plugin. -/
def hasSecretsQuery (tr : List Action) : Bool :=
  tr.any fun a => match a with | Action.querySecrets _ => true | _ => false

/-- The event types a trace publishes on the bus. -/
def pubEvents (tr : List Action) : List String :=
  tr.filterMap fun a => match a with | Action.publishEvent t => some t | _ => none

/-- The directories a trace deletes. -/
def removedPaths (tr : List Action) : List String :=
  tr.filterMap fun a => match a with | Action.removeDir p => some p | _ => none

/-- The first descriptor content a trace writes, if any. -/
def writtenDescriptor (tr : List Action) : Option String :=
  tr.findSome? fun a => match a with | Action.writeDescriptor c => some c | _ => none

/-- The local descriptor after one `deployRepo` run: the written content when
the run wrote one, else unchanged. -/
def localAfter (w : DeployWorld) : Option String :=
  match writtenDescriptor (deployRepo w) with
  | some c => some c
  | none => w.localDescriptor

/-- The same unit's deploy inputs on the next cycle, when the remote descriptor
(and everything else) is unchanged: only the locally stored descriptor moved. -/
def secondRun (w : DeployWorld) : DeployWorld := { w with localDescriptor := localAfter w }

/-- The unit keys (`owner/name`) present as unit directories on disk. -/
def diskUnits (disk : List UserDirEntry) : List String :=
  disk.flatMap fun u =>
    if u.isDir then
      u.repos.filterMap fun rd => if rd.isDir then some (u.name ++ "/" ++ rd.name) else none
    else []

/-- The on-disk unit inventory left after a cycle's trace: the units whose
directory the trace did not delete. -/
def inventoryAfter (targetDir : String) (disk : List UserDirEntry) (tr : List Action) :
    List String :=
  (diskUnits disk).filter fun key => !(removedPaths tr).contains (pathJoin targetDir key)

/-- Actions the deploy pipeline (`deployRepo`) can emit. -/
def isPipelineAction : Action → Bool
  | Action.mkdirUnit => true
  | Action.logUpdate => true
  | Action.writeDescriptor _ => true
  | Action.mkdirHooksDir _ => true
  | Action.writeHookScript _ _ => true
  | Action.querySecrets _ => true
  | Action.execHook _ _ => true
  | Action.executorUp _ => true
  | Action.logDeployComplete => true
  | _ => false

/-- Whether the global pre-hook stage of a deploy succeeds (vacuously when no
global hooks directory is configured). -/
def globalPreOk (w : DeployWorld) : Bool :=
  !w.globalHooksConfigured || (executeHooks HookStage.globalPre w.globalPre).2

/-- Whether the per-unit pre-hook stage of a deploy succeeds. -/
def repoPreOk (w : DeployWorld) : Bool := (executeHooks HookStage.repoPre w.repoPre).2

/-! ### Concrete worlds used to evaluate the model -/

/-- Secrets plugin `A`, discovery order 1, returning key `K` with value `a`. -/
def pluginA : SecretPlugin := ⟨"A", .ok (some [("K", "a")])⟩

/-- Secrets plugin `B`, discovery order 2, returning key `K` with value `b`. -/
def pluginB : SecretPlugin := ⟨"B", .ok (some [("K", "b")])⟩

/-- A unit deploy where every collaborator succeeds and the two secrets
plugins both return the same key `K` with different values. -/
def conflictWorld : DeployWorld where
  dryRun := false
  globalHooksConfigured := false
  compose := .ok "v1"
  localDescriptor := none
  preHooks := .error .notFound
  postHooks := .error .notFound
  plugins := [pluginA, pluginB]
  globalPre := none
  repoPre := none
  upOk := true
  repoPost := none
  globalPost := none

/-- A deploy where the remote descriptor is the empty string, the local
descriptor file is absent, and there are no secrets plugins. -/
def emptyComposeWorld : DeployWorld := { conflictWorld with compose := .ok "", plugins := [] }

/-- A deploy where the remote `.deploy/pre` listing succeeds with one `.sh`
script whose content fetch fails, and one secrets plugin is registered. -/
def skipHookWorld : DeployWorld :=
  { conflictWorld with
      plugins := [pluginA]
      preHooks := .ok [⟨"01-a.sh", true, .error ()⟩] }

/-- A deploy whose per-unit pre-hook directory holds one script that exits
non-zero, with a per-unit post-hook script present. -/
def failingPreWorld : DeployWorld :=
  { conflictWorld with
      repoPre := some [⟨"01-fail.sh", false, false⟩]
      repoPost := some [⟨"01-post.sh", false, true⟩] }

/-- `conflictWorld` with the dry-run flag set. -/
def dryRunWorld : DeployWorld := { conflictWorld with dryRun := true }

/-- A disk holding the single unit directory `alice/app`. -/
def aliceDisk : List UserDirEntry := [⟨"alice", true, [⟨"app", true⟩]⟩]

/-- A disk holding the single unit directory `bob/old`. -/
def bobDisk : List UserDirEntry := [⟨"bob", true, [⟨"old", true⟩]⟩]

/-- Deploy inputs for cycle-level statements whose deploy phase is irrelevant. -/
def benignWorlds : String → DeployWorld := fun _ => emptyComposeWorld

lemma stopCalls_stopSeq (l : List ModuleSpec) :
    stopCalls (stopSeq l) = l.map ModuleSpec.name := by
  induction l with
  | nil => rfl
  | cons m rest ih =>
    simp only [stopSeq, stopCalls, List.filterMap_cons, List.filterMap_append, stopCalls] at *
    cases m.stopErr <;> simp [ih, stopCalls]

lemma stopCall_mem_stopSeq {m : ModuleSpec} {l : List ModuleSpec} (hm : m ∈ l) :
    MAction.stopCall m.name ∈ stopSeq l := by
  induction l with
  | nil => cases hm
  | cons x rest ih =>
    rcases List.mem_cons.mp hm with h | h
    · subst h; simp [stopSeq]
    · simp [stopSeq, ih h]

lemma logStopError_mem_stopSeq {m : ModuleSpec} {l : List ModuleSpec} (hm : m ∈ l)
    (he : m.stopErr = true) : MAction.logStopError m.name ∈ stopSeq l := by
  induction l with
  | nil => cases hm
  | cons x rest ih =>
    rcases List.mem_cons.mp hm with h | h
    · subst h; simp [stopSeq, he]
    · simp [stopSeq, ih h]

lemma mem_execHooksList {stage : HookStage} {l : List Script} {a : Action}
    (h : a ∈ (execHooksList stage l).1) : ∃ n, a = Action.execHook stage n := by
  induction l with
  | nil => cases h
  | cons s rest ih =>
    by_cases hskip : (s.isDir || !(goEndsWith s.sname ".sh")) = true
    · rw [execHooksList, if_pos hskip] at h
      exact ih h
    · rw [execHooksList, if_neg hskip] at h
      by_cases hok : s.runOk = true
      · rw [if_pos hok] at h
        rcases List.mem_cons.mp h with heq | hmem
        · exact ⟨s.sname, heq⟩
        · exact ih hmem
      · rw [if_neg hok] at h
        rcases List.mem_cons.mp h with heq | hmem
        · exact ⟨s.sname, heq⟩
        · cases hmem

lemma mem_executeHooks {stage : HookStage} {o : Option (List Script)} {a : Action}
    (h : a ∈ (executeHooks stage o).1) : ∃ n, a = Action.execHook stage n := by
  cases o with
  | none => cases h
  | some l => exact mem_execHooksList h

lemma mem_fetchRepoHooks_ok {stage : String} {r : Except FetchErr (List HookFile)}
    {acts : List Action} {a : Action} (hr : fetchRepoHooks stage r = .ok acts)
    (h : a ∈ acts) : a = Action.mkdirHooksDir stage ∨ ∃ n, a = Action.writeHookScript stage n := by
  cases r with
  | error e =>
    cases e with
    | notFound =>
      simp only [fetchRepoHooks, Except.ok.injEq] at hr
      subst hr; cases h
    | transient => simp [fetchRepoHooks] at hr
  | ok files =>
    simp only [fetchRepoHooks, Except.ok.injEq] at hr
    subst hr
    rcases List.mem_cons.mp h with heq | hmem
    · exact Or.inl heq
    · right
      obtain ⟨f, _, hf⟩ := List.mem_filterMap.mp hmem
      by_cases hc : (f.isFile && goEndsWith f.name ".sh") = true
      · rw [if_pos hc] at hf
        cases hcf : f.content with
        | ok c => rw [hcf] at hf; exact ⟨f.name, (Option.some.injEq _ _).mp hf |>.symm⟩
        | error e => rw [hcf] at hf; cases hf
      · rw [if_neg hc] at hf; cases hf

lemma mem_collectSecretEnv {ps : List SecretPlugin} {a : Action}
    (h : a ∈ (collectSecretEnv ps).1) : ∃ n, a = Action.querySecrets n := by
  induction ps with
  | nil => cases h
  | cons p rest ih =>
    cases hres : p.execResult with
    | error e =>
      rw [collectSecretEnv, hres] at h
      rcases List.mem_cons.mp h with heq | hmem
      · exact ⟨p.pname, heq⟩
      · cases hmem
    | ok o =>
      cases o with
      | none =>
        rw [collectSecretEnv, hres] at h
        rcases List.mem_cons.mp h with heq | hmem
        · exact ⟨p.pname, heq⟩
        · exact ih hmem
      | some kvs =>
        rw [collectSecretEnv, hres] at h
        rcases List.mem_cons.mp h with heq | hmem
        · exact ⟨p.pname, heq⟩
        · exact ih hmem

lemma mem_runHooksAndUp {w : DeployWorld} {env : List String} {a : Action}
    (h : a ∈ runHooksAndUp w env) :
    (∃ st n, a = Action.execHook st n) ∨ a = Action.executorUp env ∨ a = Action.logDeployComplete := by
  unfold runHooksAndUp at h
  set g := if w.globalHooksConfigured then executeHooks HookStage.globalPre w.globalPre
           else ([], true) with hg
  have hgmem : ∀ b, b ∈ g.1 → ∃ n, b = Action.execHook HookStage.globalPre n := by
    intro b hb
    rw [hg] at hb
    by_cases hc : w.globalHooksConfigured = true
    · rw [if_pos hc] at hb; exact mem_executeHooks hb
    · rw [if_neg hc] at hb; cases hb
  by_cases h2 : (!g.2) = true
  · rw [if_pos h2] at h
    exact Or.inl ⟨HookStage.globalPre, hgmem a h⟩
  · rw [if_neg h2] at h
    by_cases h3 : (!(executeHooks HookStage.repoPre w.repoPre).2) = true
    · rw [if_pos h3] at h
      rcases List.mem_append.mp h with hb | hb
      · exact Or.inl ⟨HookStage.globalPre, hgmem a hb⟩
      · exact Or.inl ⟨HookStage.repoPre, mem_executeHooks hb⟩
    · rw [if_neg h3] at h
      set gp := if w.globalHooksConfigured then executeHooks HookStage.globalPost w.globalPost
                else ([], true) with hgp
      have hgpmem : ∀ b, b ∈ gp.1 → ∃ n, b = Action.execHook HookStage.globalPost n := by
        intro b hb
        rw [hgp] at hb
        by_cases hc : w.globalHooksConfigured = true
        · rw [if_pos hc] at hb; exact mem_executeHooks hb
        · rw [if_neg hc] at hb; cases hb
      have hpre : ∀ b, b ∈ g.1 ++ (executeHooks HookStage.repoPre w.repoPre).1
            ++ [Action.executorUp env] →
          (∃ st n, b = Action.execHook st n) ∨ b = Action.executorUp env
            ∨ b = Action.logDeployComplete := by
        intro b hb
        rcases List.mem_append.mp hb with hb | hb
        · rcases List.mem_append.mp hb with hb | hb
          · exact Or.inl ⟨HookStage.globalPre, hgmem b hb⟩
          · exact Or.inl ⟨HookStage.repoPre, mem_executeHooks hb⟩
        · rcases List.mem_cons.mp hb with heq | hmem
          · exact Or.inr (Or.inl heq)
          · cases hmem
      by_cases h4 : (!w.upOk) = true
      · rw [if_pos h4] at h
        exact hpre a h
      · rw [if_neg h4] at h
        rcases List.mem_append.mp h with hb | hb
        · rcases List.mem_append.mp hb with hb | hb
          · rcases List.mem_append.mp hb with hb | hb
            · exact hpre a hb
            · exact Or.inl ⟨HookStage.repoPost, mem_executeHooks hb⟩
          · exact Or.inl ⟨HookStage.globalPost, hgpmem a hb⟩
        · by_cases h5 : (!gp.2) = true
          · rw [if_pos h5] at hb; cases hb
          · rw [if_neg h5] at hb
            rcases List.mem_cons.mp hb with heq | hmem
            · exact Or.inr (Or.inr heq)
            · cases hmem

lemma mem_deployAfterWrite {w : DeployWorld} {c : String} {a : Action}
    (h : a ∈ deployAfterWrite w c) : isPipelineAction a = true := by
  unfold deployAfterWrite at h
  rcases List.mem_cons.mp h with heq | hmem
  · subst heq; rfl
  · clear h
    cases hpre : fetchRepoHooks "pre" w.preHooks with
    | error e => rw [hpre] at hmem; cases hmem
    | ok preActs =>
      rw [hpre] at hmem
      rcases List.mem_append.mp hmem with hb | hb
      · rcases mem_fetchRepoHooks_ok hpre hb with heq | ⟨n, heq⟩ <;> subst heq <;> rfl
      · cases hpost : fetchRepoHooks "post" w.postHooks with
        | error e => rw [hpost] at hb; cases hb
        | ok postActs =>
          rw [hpost] at hb
          rcases List.mem_append.mp hb with hb | hb
          · rcases List.mem_append.mp hb with hb | hb
            · rcases mem_fetchRepoHooks_ok hpost hb with heq | ⟨n, heq⟩ <;> subst heq <;> rfl
            · obtain ⟨n, heq⟩ := mem_collectSecretEnv hb; subst heq; rfl
          · cases hsec : (collectSecretEnv w.plugins).2 with
            | error e => rw [hsec] at hb; cases hb
            | ok env =>
              rw [hsec] at hb
              rcases mem_runHooksAndUp hb with ⟨st, n, heq⟩ | heq | heq <;> subst heq <;> rfl

lemma mem_deployRepo {w : DeployWorld} {a : Action} (h : a ∈ deployRepo w) :
    isPipelineAction a = true := by
  unfold deployRepo at h
  cases hc : w.compose with
  | error e => rw [hc] at h; cases h
  | ok content =>
    rw [hc] at h
    dsimp only at h
    have hmk : ∀ b, b ∈ (if w.dryRun then ([] : List Action) else [Action.mkdirUnit]) →
        isPipelineAction b = true := by
      intro b hb
      by_cases hd : w.dryRun = true
      · rw [if_pos hd] at hb; cases hb
      · rw [if_neg hd] at hb
        rcases List.mem_cons.mp hb with heq | hmem
        · subst heq; rfl
        · cases hmem
    by_cases hid : (w.localDescriptor.getD "" == content) = true
    · rw [if_pos hid] at h
      exact hmk a h
    · rw [if_neg hid] at h
      by_cases hd : w.dryRun = true
      · rw [if_pos hd] at h
        rcases List.mem_append.mp h with hb | hb
        · exact hmk a hb
        · rcases List.mem_cons.mp hb with heq | hmem
          · subst heq; rfl
          · cases hmem
      · rw [if_neg hd] at h
        rcases List.mem_append.mp h with hb | hb
        · rcases List.mem_append.mp hb with hb | hb
          · exact hmk a hb
          · rcases List.mem_cons.mp hb with heq | hmem
            · subst heq; rfl
            · cases hmem
        · exact mem_deployAfterWrite hb

lemma not_bang_eq_true {b : Bool} (h : ¬ (!b) = true) : b = true := by
  cases b
  · exact absurd rfl h
  · rfl

lemma bang_eq_true {b : Bool} (h : (!b) = true) : b = false := by
  cases b
  · rfl
  · exact absurd h (by decide)

lemma contains_eq_false_of_not_mem {l : List String} {a : String} (h : a ∉ l) :
    l.contains a = false := by
  cases hc : l.contains a
  · rfl
  · exact absurd (List.elem_iff.mp hc) h

lemma pathJoin_assoc (t a b : String) : pathJoin (pathJoin t a) b = pathJoin t (a ++ "/" ++ b) := by
  unfold pathJoin
  simp [String.append_assoc]

lemma pathJoin_inj_right {t a b : String} (h : pathJoin t a = pathJoin t b) : a = b := by
  unfold pathJoin at h
  have hd := congrArg String.data h
  rw [String.data_append, String.data_append, String.data_append, String.data_append] at hd
  rw [List.append_assoc, List.append_assoc] at hd
  have hab := List.append_cancel_left (List.append_cancel_left hd)
  cases a with
  | mk da =>
    cases b with
    | mk db => exact congrArg String.mk hab

lemma mem_processLocalState {desired removal : List String} {dryRun : Bool}
    {targetDir : String} {disk : List UserDirEntry} {a : Action}
    (h : a ∈ processLocalState desired removal dryRun targetDir disk) :
    ∃ u rd, u ∈ disk ∧ u.isDir = true ∧ rd ∈ u.repos ∧
      a ∈ classifyRepo desired removal dryRun targetDir u.name rd := by
  unfold processLocalState at h
  obtain ⟨u, hu, ha⟩ := List.mem_flatMap.mp h
  by_cases hdir : (!u.isDir) = true
  · rw [if_pos hdir] at ha; cases ha
  · rw [if_neg hdir] at ha
    obtain ⟨rd, hrd, ha⟩ := List.mem_flatMap.mp ha
    exact ⟨u, rd, hu, not_bang_eq_true hdir, hrd, ha⟩

lemma mem_classifyRepo {desired removal : List String} {dryRun : Bool}
    {targetDir userName : String} {rd : RepoDirEntry} {a : Action}
    (h : a ∈ classifyRepo desired removal dryRun targetDir userName rd) :
    rd.isDir = true ∧
      ((userName ++ "/" ++ rd.name) ∈ removal
        ∧ a ∈ pruneService dryRun (pathJoin (pathJoin targetDir userName) rd.name))
      ∨ ((userName ++ "/" ++ rd.name) ∉ removal ∧ (userName ++ "/" ++ rd.name) ∉ desired
        ∧ a = Action.logWarnDivergence (userName ++ "/" ++ rd.name)) := by
  unfold classifyRepo at h
  by_cases hdir : (!rd.isDir) = true
  · rw [if_pos hdir] at h; cases h
  · rw [if_neg hdir] at h
    dsimp only at h
    by_cases hrem : removal.contains (userName ++ "/" ++ rd.name) = true
    · rw [if_pos hrem] at h
      exact Or.inl ⟨not_bang_eq_true hdir, List.elem_iff.mp hrem, h⟩
    · rw [if_neg hrem] at h
      by_cases hdes : (!(desired.contains (userName ++ "/" ++ rd.name))) = true
      · rw [if_pos hdes] at h
        rcases List.mem_cons.mp h with heq | hmem
        · refine Or.inr ⟨fun hc => hrem (List.elem_iff.mpr hc), fun hc => ?_, heq⟩
          have hce : desired.contains (userName ++ "/" ++ rd.name) = true := List.elem_iff.mpr hc
          rw [bang_eq_true hdes] at hce
          exact absurd hce (by decide)
        · cases hmem
      · rw [if_neg hdes] at h; cases h

lemma mem_pruneService {dryRun : Bool} {path : String} {a : Action}
    (h : a ∈ pruneService dryRun path) :
    a = Action.logDryRunPrune path ∨ a = Action.executorDown path ∨ a = Action.removeDir path := by
  unfold pruneService at h
  by_cases hd : dryRun = true
  · rw [if_pos hd] at h
    rcases List.mem_cons.mp h with heq | hmem
    · exact Or.inl heq
    · cases hmem
  · rw [if_neg hd] at h
    rcases List.mem_cons.mp h with heq | hmem
    · exact Or.inr (Or.inl heq)
    · rcases List.mem_cons.mp hmem with heq | hmem
      · exact Or.inr (Or.inr heq)
      · cases hmem

lemma mem_deployPhase {removal : List String} {worlds : String → DeployWorld}
    {keys : List String} {a : Action} (h : a ∈ deployPhase removal worlds keys) :
    ∃ k, k ∈ keys ∧
      ((k ∈ removal ∧ a = Action.logWarnConflictSkip k)
        ∨ (k ∉ removal ∧ (a = Action.deployInvoked k ∨ a ∈ deployRepo (worlds k)))) := by
  induction keys with
  | nil => cases h
  | cons k rest ih =>
    rw [deployPhase] at h
    rcases List.mem_append.mp h with hb | hb
    · refine ⟨k, List.mem_cons_self k rest, ?_⟩
      by_cases hrem : removal.contains k = true
      · rw [if_pos hrem] at hb
        rcases List.mem_cons.mp hb with heq | hmem
        · exact Or.inl ⟨List.elem_iff.mp hrem, heq⟩
        · cases hmem
      · rw [if_neg hrem] at hb
        rcases List.mem_cons.mp hb with heq | hmem
        · exact Or.inr ⟨fun hc => hrem (List.elem_iff.mpr hc), Or.inl heq⟩
        · exact Or.inr ⟨fun hc => hrem (List.elem_iff.mpr hc), Or.inr hmem⟩
    · obtain ⟨k', hk', hor⟩ := ih hb
      exact ⟨k', List.mem_cons_of_mem k hk', hor⟩

lemma logWarnConflictSkip_mem_deployPhase {removal : List String}
    {worlds : String → DeployWorld} {keys : List String} {key : String}
    (hk : key ∈ keys) (hr : key ∈ removal) :
    Action.logWarnConflictSkip key ∈ deployPhase removal worlds keys := by
  induction keys with
  | nil => cases hk
  | cons k rest ih =>
    rw [deployPhase]
    rcases List.mem_cons.mp hk with heq | hmem
    · subst heq
      rw [if_pos (List.elem_iff.mpr hr)]
      exact List.mem_append.mpr (Or.inl (List.mem_cons_self _ _))
    · exact List.mem_append.mpr (Or.inr (ih hmem))

lemma classifyRepo_removal {desired removal : List String} {dryRun : Bool}
    {targetDir userName : String} {rd : RepoDirEntry} (hdir : rd.isDir = true)
    (hr : (userName ++ "/" ++ rd.name) ∈ removal) :
    classifyRepo desired removal dryRun targetDir userName rd
      = pruneService dryRun (pathJoin (pathJoin targetDir userName) rd.name) := by
  unfold classifyRepo
  rw [if_neg (by simp [hdir])]
  dsimp only
  rw [if_pos (List.elem_iff.mpr hr)]

lemma classifyRepo_unclassified {desired removal : List String} {dryRun : Bool}
    {targetDir userName : String} {rd : RepoDirEntry} (hdir : rd.isDir = true)
    (hr : (userName ++ "/" ++ rd.name) ∉ removal)
    (hd : (userName ++ "/" ++ rd.name) ∉ desired) :
    classifyRepo desired removal dryRun targetDir userName rd
      = [Action.logWarnDivergence (userName ++ "/" ++ rd.name)] := by
  unfold classifyRepo
  rw [if_neg (by simp [hdir])]
  dsimp only
  rw [if_neg (fun hc => hr (List.elem_iff.mp hc))]
  rw [if_pos (show (!(desired.contains (userName ++ "/" ++ rd.name))) = true by
    rw [contains_eq_false_of_not_mem hd]; rfl)]

lemma classifyRepo_sub_processLocalState {desired removal : List String} {dryRun : Bool}
    {targetDir : String} {disk : List UserDirEntry} {u : UserDirEntry} {rd : RepoDirEntry}
    (hu : u ∈ disk) (hudir : u.isDir = true) (hrd : rd ∈ u.repos) {a : Action}
    (ha : a ∈ classifyRepo desired removal dryRun targetDir u.name rd) :
    a ∈ processLocalState desired removal dryRun targetDir disk := by
  unfold processLocalState
  refine List.mem_flatMap.mpr ⟨u, hu, ?_⟩
  rw [if_neg (by simp [hudir])]
  exact List.mem_flatMap.mpr ⟨rd, hrd, ha⟩

lemma any_eq_false_of_forall {p : Action → Bool} {tr : List Action}
    (h : ∀ a ∈ tr, p a = false) : tr.any p = false := by
  rw [List.any_eq_false]
  intro a ha
  rw [h a ha]
  simp

lemma fetch_acts_no_up {stage : String} {r : Except FetchErr (List HookFile)}
    {acts : List Action} (hr : fetchRepoHooks stage r = .ok acts) : hasUp acts = false := by
  unfold hasUp
  refine any_eq_false_of_forall fun a ha => ?_
  rcases mem_fetchRepoHooks_ok hr ha with heq | ⟨n, heq⟩ <;> subst heq <;> rfl

lemma fetch_acts_no_hookExec {stage : String} {r : Except FetchErr (List HookFile)}
    {acts : List Action} (hr : fetchRepoHooks stage r = .ok acts) : hasHookExec acts = false := by
  unfold hasHookExec
  refine any_eq_false_of_forall fun a ha => ?_
  rcases mem_fetchRepoHooks_ok hr ha with heq | ⟨n, heq⟩ <;> subst heq <;> rfl

lemma fetch_acts_no_secrets {stage : String} {r : Except FetchErr (List HookFile)}
    {acts : List Action} (hr : fetchRepoHooks stage r = .ok acts) : hasSecretsQuery acts = false := by
  unfold hasSecretsQuery
  refine any_eq_false_of_forall fun a ha => ?_
  rcases mem_fetchRepoHooks_ok hr ha with heq | ⟨n, heq⟩ <;> subst heq <;> rfl

lemma sec_acts_no_up {ps : List SecretPlugin} : hasUp (collectSecretEnv ps).1 = false := by
  unfold hasUp
  refine any_eq_false_of_forall fun a ha => ?_
  obtain ⟨n, heq⟩ := mem_collectSecretEnv ha
  subst heq; rfl

lemma sec_acts_no_post {ps : List SecretPlugin} :
    hasPostHookExec (collectSecretEnv ps).1 = false := by
  unfold hasPostHookExec
  refine any_eq_false_of_forall fun a ha => ?_
  obtain ⟨n, heq⟩ := mem_collectSecretEnv ha
  subst heq; rfl

lemma executeHooks_snd_pre_flags {st : HookStage} {o : Option (List Script)}
    (hst : st = HookStage.globalPre ∨ st = HookStage.repoPre) :
    hasUp (executeHooks st o).1 = false ∧ hasPostHookExec (executeHooks st o).1 = false := by
  constructor
  · unfold hasUp
    refine any_eq_false_of_forall fun a ha => ?_
    obtain ⟨n, heq⟩ := mem_executeHooks ha
    subst heq; rfl
  · unfold hasPostHookExec
    refine any_eq_false_of_forall fun a ha => ?_
    obtain ⟨n, heq⟩ := mem_executeHooks ha
    subst heq
    rcases hst with h | h <;> subst h <;> rfl

lemma runHooksAndUp_preFail_flags {w : DeployWorld} {env : List String}
    (hfail : (globalPreOk w && repoPreOk w) = false) :
    hasUp (runHooksAndUp w env) = false ∧ hasPostHookExec (runHooksAndUp w env) = false := by
  unfold runHooksAndUp
  set g := if w.globalHooksConfigured then executeHooks HookStage.globalPre w.globalPre
           else (([] : List Action), true) with hg
  have hgflags : hasUp g.1 = false ∧ hasPostHookExec g.1 = false := by
    rw [hg]
    by_cases hc : w.globalHooksConfigured = true
    · rw [if_pos hc]
      exact executeHooks_snd_pre_flags (Or.inl rfl)
    · rw [if_neg hc]
      exact ⟨rfl, rfl⟩
  have hg2 : g.2 = globalPreOk w := by
    rw [hg]
    unfold globalPreOk
    by_cases hc : w.globalHooksConfigured = true
    · rw [if_pos hc, hc]
      simp
    · rw [if_neg hc]
      cases hcc : w.globalHooksConfigured
      · simp
      · exact absurd hcc hc
  cases hgp : globalPreOk w with
  | false =>
    rw [if_pos (by rw [hg2, hgp]; rfl)]
    exact hgflags
  | true =>
    cases hrp : repoPreOk w with
    | false =>
      rw [if_neg (by rw [hg2, hgp]; simp)]
      have hr2 : (executeHooks HookStage.repoPre w.repoPre).2 = false := hrp
      rw [if_pos (by rw [hr2]; rfl)]
      have hrflags := @executeHooks_snd_pre_flags HookStage.repoPre w.repoPre (Or.inr rfl)
      unfold hasUp hasPostHookExec at *
      rw [List.any_append, List.any_append, hgflags.1, hgflags.2, hrflags.1, hrflags.2]
      exact ⟨rfl, rfl⟩
    | true =>
      rw [hgp, hrp] at hfail
      exact absurd hfail (by decide)

lemma deployRepo_identical {w : DeployWorld} {c : String} (hc : w.compose = .ok c)
    (heq : w.localDescriptor.getD "" = c) :
    deployRepo w = if w.dryRun then [] else [Action.mkdirUnit] := by
  unfold deployRepo
  rw [hc]
  dsimp only
  rw [if_pos (by rw [heq]; exact beq_self_eq_true c)]

lemma deployRepo_dryRun_changed {w : DeployWorld} {c : String} (hc : w.compose = .ok c)
    (hne : w.localDescriptor.getD "" ≠ c) (hdr : w.dryRun = true) :
    deployRepo w = [Action.logUpdate] := by
  unfold deployRepo
  rw [hc]
  dsimp only
  rw [if_neg (by simp [hne]), hdr]
  simp

lemma deployRepo_trace_changed {w : DeployWorld} {c : String} (hc : w.compose = .ok c)
    (hne : w.localDescriptor.getD "" ≠ c) (hdr : w.dryRun = false) :
    deployRepo w = Action.mkdirUnit :: Action.logUpdate :: deployAfterWrite w c := by
  unfold deployRepo
  rw [hc]
  dsimp only
  rw [if_neg (by simp [hne]), hdr]
  simp

lemma deployAfterWrite_preErr {w : DeployWorld} {c : String}
    (hp : w.preHooks = .error FetchErr.transient) :
    deployAfterWrite w c = [Action.writeDescriptor c] := by
  unfold deployAfterWrite
  rw [hp]
  rfl

lemma deployAfterWrite_postErr {w : DeployWorld} {c : String} {preActs : List Action}
    (hpre : fetchRepoHooks "pre" w.preHooks = .ok preActs)
    (hp : w.postHooks = .error FetchErr.transient) :
    deployAfterWrite w c = Action.writeDescriptor c :: preActs := by
  unfold deployAfterWrite
  rw [hpre, hp]
  dsimp only [fetchRepoHooks]
  rw [List.append_nil]

lemma hasUp_eq_false_iff {tr : List Action} :
    hasUp tr = false ↔ ∀ env, Action.executorUp env ∉ tr := by
  unfold hasUp
  rw [List.any_eq_false]
  constructor
  · intro h env hmem
    exact (h _ hmem) rfl
  · intro h a ha hpa
    cases a with
    | executorUp env => exact h env ha
    | _ => exact Bool.noConfusion hpa

lemma hasPostHookExec_eq_false_iff {tr : List Action} :
    hasPostHookExec tr = false ↔
      ∀ n, Action.execHook HookStage.repoPost n ∉ tr
        ∧ Action.execHook HookStage.globalPost n ∉ tr := by
  unfold hasPostHookExec
  rw [List.any_eq_false]
  constructor
  · intro h n
    exact ⟨fun hmem => (h _ hmem) rfl, fun hmem => (h _ hmem) rfl⟩
  · intro h a ha hpa
    cases a with
    | execHook st n =>
      cases st with
      | repoPost => exact (h n).1 ha
      | globalPost => exact (h n).2 ha
      | globalPre => exact Bool.noConfusion hpa
      | repoPre => exact Bool.noConfusion hpa
    | _ => exact Bool.noConfusion hpa

lemma mem_deployAfterWrite_cases {w : DeployWorld} {c : String} {a : Action}
    (h : a ∈ deployAfterWrite w c) :
    a = Action.writeDescriptor c
    ∨ a = Action.mkdirHooksDir "pre" ∨ (∃ n, a = Action.writeHookScript "pre" n)
    ∨ a = Action.mkdirHooksDir "post" ∨ (∃ n, a = Action.writeHookScript "post" n)
    ∨ (∃ n, a = Action.querySecrets n)
    ∨ (∃ env, (collectSecretEnv w.plugins).2 = .ok env ∧ a ∈ runHooksAndUp w env) := by
  unfold deployAfterWrite at h
  rcases List.mem_cons.mp h with heq | hmem
  · exact Or.inl heq
  · right
    clear h
    cases hpre : fetchRepoHooks "pre" w.preHooks with
    | error e => rw [hpre] at hmem; cases hmem
    | ok preActs =>
      rw [hpre] at hmem
      rcases List.mem_append.mp hmem with hb | hb
      · rcases mem_fetchRepoHooks_ok hpre hb with heq | ⟨n, heq⟩
        · exact Or.inl heq
        · exact Or.inr (Or.inl ⟨n, heq⟩)
      · right; right
        cases hpost : fetchRepoHooks "post" w.postHooks with
        | error e => rw [hpost] at hb; cases hb
        | ok postActs =>
          rw [hpost] at hb
          rcases List.mem_append.mp hb with hb | hb
          · rcases List.mem_append.mp hb with hb | hb
            · rcases mem_fetchRepoHooks_ok hpost hb with heq | ⟨n, heq⟩
              · exact Or.inl heq
              · exact Or.inr (Or.inl ⟨n, heq⟩)
            · obtain ⟨n, heq⟩ := mem_collectSecretEnv hb
              exact Or.inr (Or.inr (Or.inl ⟨n, heq⟩))
          · cases hsec : (collectSecretEnv w.plugins).2 with
            | error e => rw [hsec] at hb; cases hb
            | ok env => exact Or.inr (Or.inr (Or.inr ⟨env, rfl, by rw [hsec] at hb; exact hb⟩))

lemma mem_deployRepo_cases {w : DeployWorld} {a : Action} (h : a ∈ deployRepo w) :
    a = Action.mkdirUnit ∨ a = Action.logUpdate
      ∨ ∃ c, w.compose = .ok c ∧ a ∈ deployAfterWrite w c := by
  unfold deployRepo at h
  cases hc : w.compose with
  | error e => rw [hc] at h; cases h
  | ok content =>
    rw [hc] at h
    dsimp only at h
    have hmk : ∀ b : Action, b ∈ (if w.dryRun then ([] : List Action) else [Action.mkdirUnit]) →
        b = Action.mkdirUnit := by
      intro b hb
      by_cases hd : w.dryRun = true
      · rw [if_pos hd] at hb; cases hb
      · rw [if_neg hd] at hb
        rcases List.mem_cons.mp hb with heq | hmem
        · exact heq
        · cases hmem
    by_cases hid : (w.localDescriptor.getD "" == content) = true
    · rw [if_pos hid] at h
      exact Or.inl (hmk a h)
    · rw [if_neg hid] at h
      by_cases hd : w.dryRun = true
      · rw [if_pos hd] at h
        rcases List.mem_append.mp h with hb | hb
        · exact Or.inl (hmk a hb)
        · rcases List.mem_cons.mp hb with heq | hmem
          · exact Or.inr (Or.inl heq)
          · cases hmem
      · rw [if_neg hd] at h
        rcases List.mem_append.mp h with hb | hb
        · rcases List.mem_append.mp hb with hb | hb
          · exact Or.inl (hmk a hb)
          · rcases List.mem_cons.mp hb with heq | hmem
            · exact Or.inr (Or.inl heq)
            · cases hmem
        · exact Or.inr (Or.inr ⟨content, rfl, hb⟩)

lemma writtenDescriptor_identical {w : DeployWorld} {c : String} (hc : w.compose = .ok c)
    (heq : w.localDescriptor.getD "" = c) : writtenDescriptor (deployRepo w) = none := by
  rw [deployRepo_identical hc heq]
  by_cases hd : w.dryRun = true
  · rw [if_pos hd]; rfl
  · rw [if_neg hd]; rfl

lemma writtenDescriptor_dryRun {w : DeployWorld} {c : String} (hc : w.compose = .ok c)
    (hne : w.localDescriptor.getD "" ≠ c) (hdr : w.dryRun = true) :
    writtenDescriptor (deployRepo w) = none := by
  rw [deployRepo_dryRun_changed hc hne hdr]
  rfl

lemma writtenDescriptor_changed {w : DeployWorld} {c : String} (hc : w.compose = .ok c)
    (hne : w.localDescriptor.getD "" ≠ c) (hdr : w.dryRun = false) :
    writtenDescriptor (deployRepo w) = some c := by
  rw [deployRepo_trace_changed hc hne hdr]
  unfold deployAfterWrite
  rfl

lemma deployRepo_dryRun_cases {w : DeployWorld} (hdr : w.dryRun = true) :
    deployRepo w = [] ∨ deployRepo w = [Action.logUpdate] := by
  cases hc : w.compose with
  | error e =>
    left
    unfold deployRepo
    rw [hc]
  | ok c =>
    by_cases hid : w.localDescriptor.getD "" = c
    · left
      rw [deployRepo_identical hc hid, if_pos hdr]
    · right
      exact deployRepo_dryRun_changed hc hid hdr

lemma mem_removedPaths {tr : List Action} {p : String} :
    p ∈ removedPaths tr ↔ Action.removeDir p ∈ tr := by
  unfold removedPaths
  rw [List.mem_filterMap]
  constructor
  · rintro ⟨a, ha, hfa⟩
    cases a <;> simp_all
  · intro h
    exact ⟨Action.removeDir p, h, rfl⟩

lemma prune_action_mem_cycle {desired removal : List String} {dryRun : Bool}
    {targetDir : String} {disk : List UserDirEntry} {worlds : String → DeployWorld}
    {a : Action} (hmem : a ∈ reconcileCycle desired removal dryRun targetDir disk worlds)
    (hshape : (∃ p, a = Action.executorDown p) ∨ (∃ p, a = Action.removeDir p)
      ∨ (∃ p, a = Action.logDryRunPrune p)) :
    ∃ u rd, u ∈ disk ∧ u.isDir = true ∧ rd ∈ u.repos ∧ rd.isDir = true ∧
      (u.name ++ "/" ++ rd.name) ∈ removal ∧
      a ∈ pruneService dryRun (pathJoin (pathJoin targetDir u.name) rd.name) := by
  unfold reconcileCycle at hmem
  rcases List.mem_append.mp hmem with hb | hb
  · obtain ⟨u, rd, hu, hudir, hrd, ha⟩ := mem_processLocalState hb
    rcases mem_classifyRepo ha with ⟨hrddir, hrem, hp⟩ | ⟨_, _, heq⟩
    · exact ⟨u, rd, hu, hudir, hrd, hrddir, hrem, hp⟩
    · rcases hshape with ⟨p, hpe⟩ | ⟨p, hpe⟩ | ⟨p, hpe⟩ <;> subst hpe <;> cases heq
  · exfalso
    obtain ⟨k, hk, hor⟩ := mem_deployPhase hb
    rcases hor with ⟨_, heq⟩ | ⟨_, hdep⟩
    · rcases hshape with ⟨p, hpe⟩ | ⟨p, hpe⟩ | ⟨p, hpe⟩ <;> subst hpe <;> cases heq
    · rcases hdep with heq | hmem2
      · rcases hshape with ⟨p, hpe⟩ | ⟨p, hpe⟩ | ⟨p, hpe⟩ <;> subst hpe <;> cases heq
      · have hpa := mem_deployRepo hmem2
        rcases hshape with ⟨p, hpe⟩ | ⟨p, hpe⟩ | ⟨p, hpe⟩ <;> subst hpe <;>
          simp [isPipelineAction] at hpa

lemma removeDir_mem_cycle {desired removal : List String} {dryRun : Bool}
    {targetDir : String} {disk : List UserDirEntry} {worlds : String → DeployWorld} {p : String}
    (h : Action.removeDir p ∈ reconcileCycle desired removal dryRun targetDir disk worlds) :
    ∃ key, p = pathJoin targetDir key ∧ key ∈ removal := by
  obtain ⟨u, rd, _, _, _, _, hrem, hp⟩ :=
    prune_action_mem_cycle h (Or.inr (Or.inl ⟨p, rfl⟩))
  rcases mem_pruneService hp with heq | heq | heq
  · cases heq
  · cases heq
  · refine ⟨u.name ++ "/" ++ rd.name, ?_, hrem⟩
    have hpp : p = pathJoin (pathJoin targetDir u.name) rd.name := by injection heq
    rw [hpp, pathJoin_assoc]

lemma executorDown_mem_cycle {desired removal : List String} {dryRun : Bool}
    {targetDir : String} {disk : List UserDirEntry} {worlds : String → DeployWorld} {p : String}
    (h : Action.executorDown p ∈ reconcileCycle desired removal dryRun targetDir disk worlds) :
    ∃ key, p = pathJoin targetDir key ∧ key ∈ removal := by
  obtain ⟨u, rd, _, _, _, _, hrem, hp⟩ :=
    prune_action_mem_cycle h (Or.inl ⟨p, rfl⟩)
  rcases mem_pruneService hp with heq | heq | heq
  · cases heq
  · refine ⟨u.name ++ "/" ++ rd.name, ?_, hrem⟩
    have hpp : p = pathJoin (pathJoin targetDir u.name) rd.name := by injection heq
    rw [hpp, pathJoin_assoc]
  · cases heq

lemma deployInvoked_not_mem_cycle {desired removal : List String} {dryRun : Bool}
    {targetDir : String} {disk : List UserDirEntry} {worlds : String → DeployWorld}
    {key : String} (hrem : key ∈ removal) :
    Action.deployInvoked key ∉ reconcileCycle desired removal dryRun targetDir disk worlds := by
  intro hmem
  unfold reconcileCycle at hmem
  rcases List.mem_append.mp hmem with hb | hb
  · obtain ⟨u, rd, _, _, _, ha⟩ := mem_processLocalState hb
    rcases mem_classifyRepo ha with ⟨_, _, hp⟩ | ⟨_, _, heq⟩
    · rcases mem_pruneService hp with heq | heq | heq <;> cases heq
    · cases heq
  · obtain ⟨k, hk, hor⟩ := mem_deployPhase hb
    rcases hor with ⟨_, heq⟩ | ⟨hknr, hdep⟩
    · cases heq
    · rcases hdep with heq | hmem2
      · have hkk : key = k := by injection heq
        rw [hkk] at hrem
        exact hknr hrem
      · have hpa := mem_deployRepo hmem2
        simp [isPipelineAction] at hpa

lemma mem_publishDelivers {subs : List Subscription} {t : String} {h : Nat} :
    h ∈ publishDelivers subs t ↔
      ∃ s, s ∈ subs ∧ h ∈ s.handlers ∧ matchesPattern t s.pattern = true := by
  induction subs with
  | nil => simp [publishDelivers]
  | cons x rest ih =>
    simp only [publishDelivers, List.foldr_cons] at ih ⊢
    constructor
    · intro hh
      by_cases hx : matchesPattern t x.pattern = true
      · rw [if_pos hx] at hh
        rcases List.mem_append.mp hh with hh | hh
        · exact ⟨x, List.mem_cons_self x rest, hh, hx⟩
        · obtain ⟨s, hs, h1, h2⟩ := ih.mp hh
          exact ⟨s, List.mem_cons_of_mem x hs, h1, h2⟩
      · rw [if_neg hx] at hh
        obtain ⟨s, hs, h1, h2⟩ := ih.mp hh
        exact ⟨s, List.mem_cons_of_mem x hs, h1, h2⟩
    · rintro ⟨s, hs, h1, h2⟩
      rcases List.mem_cons.mp hs with heq | hs
      · subst heq
        rw [if_pos h2]
        exact List.mem_append.mpr (Or.inl h1)
      · by_cases hx : matchesPattern t x.pattern = true
        · rw [if_pos hx]
          exact List.mem_append.mpr (Or.inr (ih.mpr ⟨s, hs, h1, h2⟩))
        · rw [if_neg hx]
          exact ih.mpr ⟨s, hs, h1, h2⟩

section Claims

/-- C1: evaluation at the failing input.  With secrets plugins `A` (discovery
order 1) and `B` (order 2) both returning key `K` with different values, the
deploy hands the executor an environment holding BOTH entries — `K=a` then
`K=b`, the later value not discarded — and publishes no event at all on the
bus, against the documented first-writer-wins merge with an informational
conflict event. -/
theorem C1_secret_conflict_keeps_both_no_event :
    Action.executorUp ["K=a", "K=b"] ∈ deployRepo conflictWorld
    ∧ pubEvents (deployRepo conflictWorld) = [] := by
  exact ⟨by decide, by decide⟩

/-- C2 counterexample: the unit `alice/app`, present on disk and in both the
Desired and the Removal set, IS pruned by the cycle — the executor's `down`
runs and its directory is deleted — refuting "removal is not applied". -/
theorem C2_counterexample_conflict_unit_pruned :
    Action.executorDown "stacks/alice/app"
        ∈ reconcileCycle ["alice/app"] ["alice/app"] false "stacks" aliceDisk benignWorlds
    ∧ Action.removeDir "stacks/alice/app"
        ∈ reconcileCycle ["alice/app"] ["alice/app"] false "stacks" aliceDisk benignWorlds := by
  exact ⟨by decide, by decide⟩

/-- C2 (amended): for a unit identity in both the Desired and the Removal set,
the cycle skips the deploy with a warning, but removal IS auto-applied: when
the unit is present on disk and dry-run is off, the executor's `down` runs on
its directory and the directory is deleted. -/
theorem C2_amended_conflict_skips_deploy_but_prunes :
    ∀ (desired removal : List String) (targetDir : String) (disk : List UserDirEntry)
      (worlds : String → DeployWorld) (u : UserDirEntry) (rd : RepoDirEntry),
      u ∈ disk → u.isDir = true → rd ∈ u.repos → rd.isDir = true →
      (u.name ++ "/" ++ rd.name) ∈ desired → (u.name ++ "/" ++ rd.name) ∈ removal →
      Action.deployInvoked (u.name ++ "/" ++ rd.name)
          ∉ reconcileCycle desired removal false targetDir disk worlds
      ∧ Action.logWarnConflictSkip (u.name ++ "/" ++ rd.name)
          ∈ reconcileCycle desired removal false targetDir disk worlds
      ∧ Action.executorDown (pathJoin (pathJoin targetDir u.name) rd.name)
          ∈ reconcileCycle desired removal false targetDir disk worlds
      ∧ Action.removeDir (pathJoin (pathJoin targetDir u.name) rd.name)
          ∈ reconcileCycle desired removal false targetDir disk worlds := by
  intro desired removal targetDir disk worlds u rd hu hudir hrd hrddir hdes hrem
  have hprune : Action.executorDown (pathJoin (pathJoin targetDir u.name) rd.name)
        ∈ classifyRepo desired removal false targetDir u.name rd
      ∧ Action.removeDir (pathJoin (pathJoin targetDir u.name) rd.name)
        ∈ classifyRepo desired removal false targetDir u.name rd := by
    rw [classifyRepo_removal hrddir hrem]
    unfold pruneService
    rw [if_neg (by simp)]
    exact ⟨List.mem_cons_self _ _, List.mem_cons_of_mem _ (List.mem_cons_self _ _)⟩
  refine ⟨deployInvoked_not_mem_cycle hrem, ?_, ?_, ?_⟩
  · exact List.mem_append.mpr (Or.inr (logWarnConflictSkip_mem_deployPhase hdes hrem))
  · exact List.mem_append.mpr
      (Or.inl (classifyRepo_sub_processLocalState hu hudir hrd hprune.1))
  · exact List.mem_append.mpr
      (Or.inl (classifyRepo_sub_processLocalState hu hudir hrd hprune.2))

/-- C2 witness: the amended claim instantiated at the one-unit disk
`alice/app` with `alice/app` in both sets. -/
theorem C2_amended_witness :
    Action.deployInvoked "alice/app"
        ∉ reconcileCycle ["alice/app"] ["alice/app"] false "stacks" aliceDisk benignWorlds
    ∧ Action.logWarnConflictSkip "alice/app"
        ∈ reconcileCycle ["alice/app"] ["alice/app"] false "stacks" aliceDisk benignWorlds
    ∧ Action.executorDown (pathJoin (pathJoin "stacks" "alice") "app")
        ∈ reconcileCycle ["alice/app"] ["alice/app"] false "stacks" aliceDisk benignWorlds
    ∧ Action.removeDir (pathJoin (pathJoin "stacks" "alice") "app")
        ∈ reconcileCycle ["alice/app"] ["alice/app"] false "stacks" aliceDisk benignWorlds := by
  have h := C2_amended_conflict_skips_deploy_but_prunes ["alice/app"] ["alice/app"] "stacks"
    aliceDisk benignWorlds ⟨"alice", true, [⟨"app", true⟩]⟩ ⟨"app", true⟩
    (by decide) rfl (by decide) rfl (by decide) (by decide)
  exact h

/-- C3: a local unit on disk that is in neither the Desired nor the Removal
set is never deleted by the cycle — no executor `down`, no directory removal,
it survives into the after-cycle inventory — and the cycle logs a divergence
warning for it. -/
theorem C3_unclassified_unit_never_deleted :
    ∀ (desired removal : List String) (dryRun : Bool) (targetDir : String)
      (disk : List UserDirEntry) (worlds : String → DeployWorld)
      (u : UserDirEntry) (rd : RepoDirEntry),
      u ∈ disk → u.isDir = true → rd ∈ u.repos → rd.isDir = true →
      (u.name ++ "/" ++ rd.name) ∉ desired → (u.name ++ "/" ++ rd.name) ∉ removal →
      Action.executorDown (pathJoin (pathJoin targetDir u.name) rd.name)
          ∉ reconcileCycle desired removal dryRun targetDir disk worlds
      ∧ Action.removeDir (pathJoin (pathJoin targetDir u.name) rd.name)
          ∉ reconcileCycle desired removal dryRun targetDir disk worlds
      ∧ (u.name ++ "/" ++ rd.name) ∈ inventoryAfter targetDir disk
          (reconcileCycle desired removal dryRun targetDir disk worlds)
      ∧ Action.logWarnDivergence (u.name ++ "/" ++ rd.name)
          ∈ reconcileCycle desired removal dryRun targetDir disk worlds := by
  intro desired removal dryRun targetDir disk worlds u rd hu hudir hrd hrddir hdes hrem
  have hdown : Action.executorDown (pathJoin (pathJoin targetDir u.name) rd.name)
      ∉ reconcileCycle desired removal dryRun targetDir disk worlds := by
    intro hmem
    obtain ⟨key, hkey, hkrem⟩ := executorDown_mem_cycle hmem
    rw [pathJoin_assoc] at hkey
    rw [pathJoin_inj_right hkey] at hrem
    exact hrem hkrem
  have hrm : Action.removeDir (pathJoin (pathJoin targetDir u.name) rd.name)
      ∉ reconcileCycle desired removal dryRun targetDir disk worlds := by
    intro hmem
    obtain ⟨key, hkey, hkrem⟩ := removeDir_mem_cycle hmem
    rw [pathJoin_assoc] at hkey
    rw [pathJoin_inj_right hkey] at hrem
    exact hrem hkrem
  refine ⟨hdown, hrm, ?_, ?_⟩
  · unfold inventoryAfter
    refine List.mem_filter.mpr ⟨?_, ?_⟩
    · unfold diskUnits
      refine List.mem_flatMap.mpr ⟨u, hu, ?_⟩
      rw [if_pos hudir]
      exact List.mem_filterMap.mpr ⟨rd, hrd, by rw [if_pos hrddir]⟩
    · rw [contains_eq_false_of_not_mem]
      · rfl
      · intro hc
        rw [← pathJoin_assoc] at hc
        exact hrm (mem_removedPaths.mp hc)
  · refine List.mem_append.mpr (Or.inl (classifyRepo_sub_processLocalState hu hudir hrd ?_))
    rw [classifyRepo_unclassified hrddir hrem hdes]
    exact List.mem_cons_self _ _

/-- C3 witness: the unit `bob/old`, on disk but in neither set, survives a
concrete cycle untouched and draws a divergence warning. -/
theorem C3_witness :
    Action.executorDown (pathJoin (pathJoin "stacks" "bob") "old")
        ∉ reconcileCycle ["alice/app"] [] false "stacks" bobDisk benignWorlds
    ∧ Action.removeDir (pathJoin (pathJoin "stacks" "bob") "old")
        ∉ reconcileCycle ["alice/app"] [] false "stacks" bobDisk benignWorlds
    ∧ ("bob" ++ "/" ++ "old") ∈ inventoryAfter "stacks" bobDisk
        (reconcileCycle ["alice/app"] [] false "stacks" bobDisk benignWorlds)
    ∧ Action.logWarnDivergence ("bob" ++ "/" ++ "old")
        ∈ reconcileCycle ["alice/app"] [] false "stacks" bobDisk benignWorlds := by
  exact C3_unclassified_unit_never_deleted ["alice/app"] [] false "stacks" bobDisk benignWorlds
    ⟨"bob", true, [⟨"old", true⟩]⟩ ⟨"old", true⟩ (by decide) rfl (by decide) rfl
    (by decide) (by decide)

/-- C6: a unit identity in both the Desired and the Removal set has the deploy
pipeline skipped for it this cycle — no `deployRepo` call — with a warning
logged instead. -/
theorem C6_conflict_no_deploy_pipeline :
    ∀ (desired removal : List String) (dryRun : Bool) (targetDir : String)
      (disk : List UserDirEntry) (worlds : String → DeployWorld) (key : String),
      key ∈ desired → key ∈ removal →
      Action.deployInvoked key ∉ reconcileCycle desired removal dryRun targetDir disk worlds
      ∧ Action.logWarnConflictSkip key
          ∈ reconcileCycle desired removal dryRun targetDir disk worlds := by
  intro desired removal dryRun targetDir disk worlds key hdes hrem
  exact ⟨deployInvoked_not_mem_cycle hrem,
    List.mem_append.mpr (Or.inr (logWarnConflictSkip_mem_deployPhase hdes hrem))⟩

/-- C6 witness: with `alice/app` in both sets, a concrete cycle never calls
the deploy pipeline for it and logs the conflict warning. -/
theorem C6_witness :
    Action.deployInvoked "alice/app"
        ∉ reconcileCycle ["alice/app"] ["alice/app"] true "stacks" aliceDisk benignWorlds
    ∧ Action.logWarnConflictSkip "alice/app"
        ∈ reconcileCycle ["alice/app"] ["alice/app"] true "stacks" aliceDisk benignWorlds := by
  exact C6_conflict_no_deploy_pipeline ["alice/app"] ["alice/app"] true "stacks" aliceDisk
    benignWorlds "alice/app" (by decide) (by decide)

/-- C4 counterexample: with the fetched descriptor content empty and the local
descriptor file absent, change detection compares the absent file as the empty
string and sees NO difference — the pipeline stops (only the unconditional
directory ensure happens), so an absent local file is not unconditionally
treated as different. -/
theorem C4_counterexample_absent_file_not_different :
    emptyComposeWorld.localDescriptor = none
    ∧ emptyComposeWorld.compose = Except.ok ""
    ∧ deployRepo emptyComposeWorld = [Action.mkdirUnit] := by
  exact ⟨rfl, rfl, by decide⟩

/-- C4 (amended): change detection compares the fetched content byte-for-byte
against the local descriptor read as a string, an absent file reading as the
empty string (so it differs exactly when the fetched content is non-empty);
the pipeline stops — no action beyond the unconditional directory ensure —
iff the contents are equal; and a second run of the pipeline with everything
else unchanged performs no hook execution and no executor invocation. -/
theorem C4_amended_change_detection :
    (∀ (w : DeployWorld) (c : String), w.compose = .ok c →
      (deployRepo w = (if w.dryRun then [] else [Action.mkdirUnit])
        ↔ w.localDescriptor.getD "" = c))
    ∧ (∀ w : DeployWorld,
        hasHookExec (deployRepo (secondRun w)) = false
          ∧ hasUp (deployRepo (secondRun w)) = false) := by
  constructor
  · intro w c hc
    constructor
    · intro heq
      by_contra hne
      have hlu : Action.logUpdate ∈ deployRepo w := by
        by_cases hdr : w.dryRun = true
        · rw [deployRepo_dryRun_changed hc hne hdr]
          exact List.mem_cons_self _ _
        · have hdr' : w.dryRun = false := by
            cases hdc : w.dryRun
            · rfl
            · exact absurd hdc hdr
          rw [deployRepo_trace_changed hc hne hdr']
          exact List.mem_cons_of_mem _ (List.mem_cons_self _ _)
      rw [heq] at hlu
      by_cases hdr : w.dryRun = true
      · rw [if_pos hdr] at hlu
        cases hlu
      · rw [if_neg hdr] at hlu
        rcases List.mem_cons.mp hlu with h | h
        · cases h
        · cases h
    · intro hid
      exact deployRepo_identical hc hid
  · intro w
    cases hcw : w.compose with
    | error e =>
      have hcs : (secondRun w).compose = Except.error e := hcw
      have hnil : deployRepo (secondRun w) = [] := by
        unfold deployRepo
        rw [hcs]
      rw [hnil]
      exact ⟨rfl, rfl⟩
    | ok c =>
      have hcs : (secondRun w).compose = Except.ok c := hcw
      by_cases hid : w.localDescriptor.getD "" = c
      · have hsl : (secondRun w).localDescriptor = w.localDescriptor := by
          have hla : localAfter w = w.localDescriptor := by
            unfold localAfter
            rw [writtenDescriptor_identical hcw hid]
          exact hla
        have htr := deployRepo_identical hcs (by rw [hsl]; exact hid)
        rw [htr]
        by_cases hd : (secondRun w).dryRun = true
        · rw [if_pos hd]
          exact ⟨rfl, rfl⟩
        · rw [if_neg hd]
          exact ⟨rfl, rfl⟩
      · by_cases hdr : w.dryRun = true
        · have hsl : (secondRun w).localDescriptor = w.localDescriptor := by
            have hla : localAfter w = w.localDescriptor := by
              unfold localAfter
              rw [writtenDescriptor_dryRun hcw hid hdr]
            exact hla
          have hdrs : (secondRun w).dryRun = true := hdr
          have htr := deployRepo_dryRun_changed hcs (by rw [hsl]; exact hid) hdrs
          rw [htr]
          exact ⟨rfl, rfl⟩
        · have hdr' : w.dryRun = false := by
            cases hdc : w.dryRun
            · rfl
            · exact absurd hdc hdr
          have hsl : (secondRun w).localDescriptor = some c := by
            have hla : localAfter w = some c := by
              unfold localAfter
              rw [writtenDescriptor_changed hcw hid hdr']
            exact hla
          have htr := deployRepo_identical hcs (by rw [hsl]; rfl)
          rw [htr]
          by_cases hd : (secondRun w).dryRun = true
          · rw [if_pos hd]
            exact ⟨rfl, rfl⟩
          · rw [if_neg hd]
            exact ⟨rfl, rfl⟩

/-- C4 witness: both amended parts instantiated — identical content `v1` on a
re-run world stops the pipeline, and the second run of `conflictWorld`
(descriptor now stored) runs no hooks and no executor. -/
theorem C4_amended_witness :
    (deployRepo { conflictWorld with localDescriptor := some "v1" } = [Action.mkdirUnit]
      ↔ (some "v1" : Option String).getD "" = "v1")
    ∧ hasHookExec (deployRepo (secondRun conflictWorld)) = false
    ∧ hasUp (deployRepo (secondRun conflictWorld)) = false := by
  refine ⟨?_, (C4_amended_change_detection.2 conflictWorld).1,
    (C4_amended_change_detection.2 conflictWorld).2⟩
  exact C4_amended_change_detection.1 { conflictWorld with localDescriptor := some "v1" } "v1" rfl

/-- C5: when any hook of either pre-stage fails (global pre-hooks when
configured, or per-unit pre-hooks), the deploy aborts: the executor's `up` is
never invoked for the unit this cycle and no post-stage hook runs. -/
theorem C5_pre_hook_failure_aborts_deploy :
    ∀ w : DeployWorld, (globalPreOk w && repoPreOk w) = false →
      hasUp (deployRepo w) = false ∧ hasPostHookExec (deployRepo w) = false := by
  intro w hfail
  rw [hasUp_eq_false_iff, hasPostHookExec_eq_false_iff]
  constructor
  · intro env hmem
    rcases mem_deployRepo_cases hmem with h | h | ⟨c, _, hdw⟩
    · cases h
    · cases h
    · rcases mem_deployAfterWrite_cases hdw with h | h | ⟨n, h⟩ | h | ⟨n, h⟩ | ⟨n, h⟩
        | ⟨env', _, hr⟩
      · cases h
      · cases h
      · cases h
      · cases h
      · cases h
      · cases h
      · exact (hasUp_eq_false_iff.mp
          (@runHooksAndUp_preFail_flags w env' hfail).1) env hr
  · intro n
    have hgen : ∀ st, Action.execHook st n ∈ deployRepo w →
        (st = HookStage.repoPost → False) ∧ (st = HookStage.globalPost → False) := by
      intro st hmem
      rcases mem_deployRepo_cases hmem with h | h | ⟨c, _, hdw⟩
      · cases h
      · cases h
      · rcases mem_deployAfterWrite_cases hdw with h | h | ⟨m, h⟩ | h | ⟨m, h⟩ | ⟨m, h⟩
          | ⟨env', _, hr⟩
        · cases h
        · cases h
        · cases h
        · cases h
        · cases h
        · cases h
        · have hpost := (hasPostHookExec_eq_false_iff.mp
            (@runHooksAndUp_preFail_flags w env' hfail).2) n
          constructor
          · intro hst
            rw [hst] at hr
            exact hpost.1 hr
          · intro hst
            rw [hst] at hr
            exact hpost.2 hr
    exact ⟨fun hmem => (hgen _ hmem).1 rfl, fun hmem => (hgen _ hmem).2 rfl⟩

/-- C5 witness: with a failing per-unit pre-hook script, the executor is not
invoked and no post-stage hook runs. -/
theorem C5_witness :
    hasUp (deployRepo failingPreWorld) = false
    ∧ hasPostHookExec (deployRepo failingPreWorld) = false := by
  exact C5_pre_hook_failure_aborts_deploy failingPreWorld (by decide)

/-- C7 counterexample: in a deploy whose remote `.deploy/pre` listing succeeds
with one `.sh` script whose content fetch fails, the unit deploy is NOT
aborted: secrets are still aggregated and the executor's `up` still runs — the
failing script is merely skipped. -/
theorem C7_counterexample_script_fetch_skipped :
    skipHookWorld.preHooks = Except.ok [⟨"01-a.sh", true, Except.error ()⟩]
    ∧ hasSecretsQuery (deployRepo skipHookWorld) = true
    ∧ hasUp (deployRepo skipHookWorld) = true := by
  exact ⟨rfl, by decide, by decide⟩

/-- C7 (amended): a failure of the remote hook *directory listing* fetch
(other than not-found) in either stage aborts the unit deploy before any
secret aggregation, hook execution or executor invocation; but when the
listing succeeds, `fetchRepoHooks` never fails for an individual script — a
script whose content fetch fails is logged and skipped. -/
theorem C7_amended_listing_failure_aborts :
    (∀ (w : DeployWorld) (c : String), w.dryRun = false → w.compose = .ok c →
      w.localDescriptor.getD "" ≠ c → w.preHooks = .error FetchErr.transient →
        hasSecretsQuery (deployRepo w) = false ∧ hasHookExec (deployRepo w) = false
          ∧ hasUp (deployRepo w) = false)
    ∧ (∀ (w : DeployWorld) (c : String), w.dryRun = false → w.compose = .ok c →
        w.localDescriptor.getD "" ≠ c → w.postHooks = .error FetchErr.transient →
          hasSecretsQuery (deployRepo w) = false ∧ hasHookExec (deployRepo w) = false
            ∧ hasUp (deployRepo w) = false)
    ∧ (∀ (stage : String) (files : List HookFile),
        ∃ acts, fetchRepoHooks stage (Except.ok files) = Except.ok acts) := by
  refine ⟨?_, ?_, fun stage files => ⟨_, rfl⟩⟩
  · intro w c hdr hc hne hp
    rw [deployRepo_trace_changed hc hne hdr, deployAfterWrite_preErr hp]
    exact ⟨rfl, rfl, rfl⟩
  · intro w c hdr hc hne hp
    rw [deployRepo_trace_changed hc hne hdr]
    cases hpre : fetchRepoHooks "pre" w.preHooks with
    | error e =>
      have hdw : deployAfterWrite w c = [Action.writeDescriptor c] := by
        unfold deployAfterWrite
        rw [hpre]
      rw [hdw]
      exact ⟨rfl, rfl, rfl⟩
    | ok preActs =>
      rw [deployAfterWrite_postErr hpre hp]
      refine ⟨?_, ?_, ?_⟩
      · have h1 := fetch_acts_no_secrets hpre
        unfold hasSecretsQuery at h1 ⊢
        rw [List.any_cons, List.any_cons, List.any_cons, h1]
        rfl
      · have h1 := fetch_acts_no_hookExec hpre
        unfold hasHookExec at h1 ⊢
        rw [List.any_cons, List.any_cons, List.any_cons, h1]
        rfl
      · have h1 := fetch_acts_no_up hpre
        unfold hasUp at h1 ⊢
        rw [List.any_cons, List.any_cons, List.any_cons, h1]
        rfl

/-- C7 witness: a pre-stage listing fetch failure on an otherwise succeeding
deploy aggregates no secrets, runs no hook and never invokes the executor. -/
theorem C7_witness :
    hasSecretsQuery (deployRepo { conflictWorld with preHooks := .error FetchErr.transient })
        = false
    ∧ hasHookExec (deployRepo { conflictWorld with preHooks := .error FetchErr.transient })
        = false
    ∧ hasUp (deployRepo { conflictWorld with preHooks := .error FetchErr.transient })
        = false := by
  exact C7_amended_listing_failure_aborts.1 _ "v1" rfl rfl (by decide) rfl

/-- C10: with the dry-run flag set, the per-unit deploy path performs no local
mutation: every trace action is the pending-update log, and for a unit whose
descriptor content differs the trace is exactly that log — no directory
creation, no descriptor write, no hook fetch or execution, no executor. -/
theorem C10_dry_run_no_mutation :
    ∀ w : DeployWorld, w.dryRun = true →
      (∀ a, a ∈ deployRepo w → a = Action.logUpdate)
      ∧ (∀ c, w.compose = .ok c → w.localDescriptor.getD "" ≠ c →
          deployRepo w = [Action.logUpdate]) := by
  intro w hdr
  constructor
  · intro a ha
    rcases deployRepo_dryRun_cases hdr with h | h
    · rw [h] at ha
      cases ha
    · rw [h] at ha
      rcases List.mem_cons.mp ha with heq | hmem
      · exact heq
      · cases hmem
  · intro c hc hne
    exact deployRepo_dryRun_changed hc hne hdr

/-- C10 witness: the dry-run variant of the all-success world only logs the
pending update. -/
theorem C10_witness :
    (∀ a, a ∈ deployRepo dryRunWorld → a = Action.logUpdate)
    ∧ deployRepo dryRunWorld = [Action.logUpdate] := by
  refine ⟨(C10_dry_run_no_mutation dryRunWorld rfl).1, ?_⟩
  exact (C10_dry_run_no_mutation dryRunWorld rfl).2 "v1" rfl (by decide)

/-- C8: the event bus delivers an event to a pattern's handlers iff the pattern
equals the event type exactly, or the pattern ends with the wildcard marker `*`
and the event type begins with the pattern's prefix; a subscriber on `deploy_*`
receives `deploy_success` and `deploy_failed` but not `notify_info`, and there
are no infix or suffix wildcards. -/
theorem C8_event_wildcard_matching :
    (∀ (t p : String), matchesPattern t p = true ↔
      (p = t ∨ (goEndsWith p "*" = true ∧ goStartsWith t (goTrimSuffix p "*") = true)))
    ∧ (∀ (subs : List Subscription) (t : String) (h : Nat),
        h ∈ publishDelivers subs t ↔
          ∃ s, s ∈ subs ∧ h ∈ s.handlers ∧
            (s.pattern = t ∨ (goEndsWith s.pattern "*" = true
              ∧ goStartsWith t (goTrimSuffix s.pattern "*") = true)))
    ∧ publishDelivers [⟨"deploy_*", [1]⟩] "deploy_success" = [1]
    ∧ publishDelivers [⟨"deploy_*", [1]⟩] "deploy_failed" = [1]
    ∧ publishDelivers [⟨"deploy_*", [1]⟩] "notify_info" = []
    ∧ matchesPattern "dexploy" "de*ploy" = false
    ∧ matchesPattern "x_success" "*success" = false := by
  have hmp : ∀ (t p : String), matchesPattern t p = true ↔
      (p = t ∨ (goEndsWith p "*" = true ∧ goStartsWith t (goTrimSuffix p "*") = true)) := by
    intro t p
    unfold matchesPattern
    by_cases he : p = t
    · simp [he]
    · rw [if_neg (by simp [he])]
      by_cases hs : goEndsWith p "*" = true
      · rw [if_pos hs]
        simp [hs, he]
      · rw [if_neg hs]
        simp only [Bool.false_eq_true, false_iff]
        rintro (h | ⟨h1, h2⟩)
        · exact he h
        · exact hs h1
  refine ⟨hmp, ?_, by decide, by decide, by decide, by decide, by decide⟩
  intro subs t h
  rw [mem_publishDelivers]
  constructor
  · rintro ⟨s, hs, hh, hm⟩
    exact ⟨s, hs, hh, (hmp t s.pattern).mp hm⟩
  · rintro ⟨s, hs, hh, hm⟩
    exact ⟨s, hs, hh, (hmp t s.pattern).mpr hm⟩

/-- C9: `ModuleManager.Stop` invokes every registered module's `Stop` exactly
once, in reverse registration order (the sequence of stop calls equals the
reversed registration list), and a module whose `Stop` errors has the error
logged while every module still receives its stop attempt. -/
theorem C9_stop_reverse_order_all_attempted :
    ∀ (modules : List ModuleSpec),
      stopCalls (mmStop modules) = (modules.map ModuleSpec.name).reverse
      ∧ (∀ m, m ∈ modules → MAction.stopCall m.name ∈ mmStop modules)
      ∧ (∀ m, m ∈ modules → m.stopErr = true → MAction.logStopError m.name ∈ mmStop modules) := by
  intro modules
  refine ⟨?_, ?_, ?_⟩
  · rw [mmStop, stopCalls_stopSeq, List.map_reverse]
  · intro m hm
    exact stopCall_mem_stopSeq (List.mem_reverse.mpr hm)
  · intro m hm he
    exact logStopError_mem_stopSeq (List.mem_reverse.mpr hm) he

/-- Witness for C9 on a concrete registration list of three modules, the middle
one failing to stop: stop calls happen in reverse order and the failing module's
error is logged. -/
theorem C9_witness :
    stopCalls (mmStop [⟨"a", false⟩, ⟨"b", true⟩, ⟨"c", false⟩]) = ["c", "b", "a"]
    ∧ MAction.stopCall "b" ∈ mmStop [⟨"a", false⟩, ⟨"b", true⟩, ⟨"c", false⟩]
    ∧ MAction.logStopError "b" ∈ mmStop [⟨"a", false⟩, ⟨"b", true⟩, ⟨"c", false⟩] := by
  refine ⟨?_, ?_, ?_⟩
  · simpa using (C9_stop_reverse_order_all_attempted [⟨"a", false⟩, ⟨"b", true⟩, ⟨"c", false⟩]).1
  · exact (C9_stop_reverse_order_all_attempted _).2.1 ⟨"b", true⟩ (by simp)
  · exact (C9_stop_reverse_order_all_attempted _).2.2 ⟨"b", true⟩ (by simp) rfl

end Claims

end GitOps
